import Mathlib

/-!
Verification development for the Mpro binding-simulation repository.

The repository's two programs build a fixed 13-term 4-qubit Pauli operator,
run a variational minimization of its expectation value over a TwoLocal
(ry rotations + cx entanglers) ansatz, extract the real part of the final
eigenvalue estimate, and classify it against fixed thresholds.

The statevector is embedded as a complete binary tree of complex amplitudes
with rational real/imaginary parts; gates and Pauli-string actions are
translated from the statevector semantics the programs invoke.  Components
implemented by the underlying library rather than in the repository's own
files (the estimator, the two optimizers, operator construction checks) are
modelled from the specification, as marked in their doc comments.
-/

namespace Mpro

/-- Complex scalar with rational real and imaginary part, as (re, im). -/
abbrev QC : Type := ℚ × ℚ

def cadd (a b : QC) : QC := (a.1 + b.1, a.2 + b.2)

def cmul (a b : QC) : QC := (a.1 * b.1 - a.2 * b.2, a.1 * b.2 + a.2 * b.1)

def cnormSq (a : QC) : ℚ := a.1 * a.1 + a.2 * a.2

/-- Statevector on n qubits: a complete binary tree of amplitudes.
The node on level n splits on the value of qubit n-1 (first child: bit 0). -/
inductive Vec : ℕ → Type
  | base (re im : ℚ) : Vec 0
  | node {n : ℕ} (v0 v1 : Vec n) : Vec (n + 1)

def vadd : {n : ℕ} → Vec n → Vec n → Vec n
  | _, .base a b, .base c d => .base (a + c) (b + d)
  | _, .node x0 x1, .node y0 y1 => .node (vadd x0 y0) (vadd x1 y1)

def qsmul (a : ℚ) : {n : ℕ} → Vec n → Vec n
  | _, .base c d => .base (a * c) (a * d)
  | _, .node v0 v1 => .node (qsmul a v0) (qsmul a v1)

def csmul (z : QC) : {n : ℕ} → Vec n → Vec n
  | _, .base c d => .base (z.1 * c - z.2 * d) (z.1 * d + z.2 * c)
  | _, .node v0 v1 => .node (csmul z v0) (csmul z v1)

def normSq : {n : ℕ} → Vec n → ℚ
  | _, .base a b => a * a + b * b
  | _, .node v0 v1 => normSq v0 + normSq v1

/-- Hermitian inner product, conjugate-linear in the first argument. -/
def cinner : {n : ℕ} → Vec n → Vec n → QC
  | _, .base a b, .base c d => (a * c + b * d, a * d - b * c)
  | _, .node x0 x1, .node y0 y1 => cadd (cinner x0 y0) (cinner x1 y1)

theorem cinner_self_re : ∀ {n : ℕ} (v : Vec n), (cinner v v).1 = normSq v := by
  intro n v
  induction v with
  | base a b => simp [cinner, normSq]
  | node v0 v1 ih0 ih1 => simp [cinner, normSq, cadd, ih0, ih1]

theorem normSq_qsmul : ∀ {n : ℕ} (a : ℚ) (v : Vec n),
    normSq (qsmul a v) = a * a * normSq v := by
  intro n a v
  induction v with
  | base c d => simp [qsmul, normSq]; ring
  | node v0 v1 ih0 ih1 => simp [qsmul, normSq, ih0, ih1]; ring

theorem normSq_csmul : ∀ {n : ℕ} (z : QC) (v : Vec n),
    normSq (csmul z v) = cnormSq z * normSq v := by
  intro n z v
  induction v with
  | base c d => simp [csmul, normSq, cnormSq]; ring
  | node v0 v1 ih0 ih1 => simp [csmul, normSq, ih0, ih1, cnormSq]; ring

theorem normSq_vadd_smul : ∀ {n : ℕ} (a b : ℚ) (x y : Vec n),
    normSq (vadd (qsmul a x) (qsmul b y)) =
      a * a * normSq x + 2 * a * b * (cinner x y).1 + b * b * normSq y := by
  intro n a b x y
  induction x with
  | base c d =>
      cases y with
      | base e f => simp [vadd, qsmul, normSq, cinner]; ring
  | node x0 x1 ih0 ih1 =>
      cases y with
      | node y0 y1 => simp [vadd, qsmul, normSq, cinner, cadd, ih0, ih1]; ring

theorem abs_two_cinner_re_le : ∀ {n : ℕ} (x y : Vec n),
    |2 * (cinner x y).1| ≤ normSq x + normSq y := by
  intro n x y
  induction x with
  | base a b =>
      cases y with
      | base c d =>
          simp only [cinner, normSq]
          rw [abs_le]
          constructor
          · nlinarith [sq_nonneg (a + c), sq_nonneg (b + d)]
          · nlinarith [sq_nonneg (a - c), sq_nonneg (b - d)]
  | node x0 x1 ih0 ih1 =>
      cases y with
      | node y0 y1 =>
          simp only [cinner, normSq, cadd]
          calc |2 * ((cinner x0 y0).1 + (cinner x1 y1).1)|
              = |2 * (cinner x0 y0).1 + 2 * (cinner x1 y1).1| := by ring_nf
            _ ≤ |2 * (cinner x0 y0).1| + |2 * (cinner x1 y1).1| := abs_add _ _
            _ ≤ (normSq x0 + normSq y0) + (normSq x1 + normSq y1) :=
                add_le_add (ih0 y0) (ih1 y1)
            _ = normSq x0 + normSq x1 + (normSq y0 + normSq y1) := by ring

/-- Single-qubit real rotation (the ry gate, parameters as cosine/sine of the
half angle) on qubit k.  Matrix [[c, -s], [s, c]] on the k-th tensor factor. -/
def ryG : (n : ℕ) → ℕ → ℚ → ℚ → Vec n → Vec n
  | 0, _, _, _, v => v
  | n + 1, k, c, s, .node v0 v1 =>
      if k = n then
        .node (vadd (qsmul c v0) (qsmul (-s) v1)) (vadd (qsmul s v0) (qsmul c v1))
      else .node (ryG n k c s v0) (ryG n k c s v1)

/-- Pauli X on qubit k: swaps the two halves on level k. -/
def pX : (n : ℕ) → ℕ → Vec n → Vec n
  | 0, _, v => v
  | n + 1, k, .node v0 v1 =>
      if k = n then .node v1 v0 else .node (pX n k v0) (pX n k v1)

/-- Pauli Z on qubit k: negates the bit-1 half on level k. -/
def pZ : (n : ℕ) → ℕ → Vec n → Vec n
  | 0, _, v => v
  | n + 1, k, .node v0 v1 =>
      if k = n then .node v0 (qsmul (-1) v1) else .node (pZ n k v0) (pZ n k v1)

/-- Pauli Y on qubit k: Y maps basis bit 0 to i times bit 1 and bit 1 to
minus i times bit 0. -/
def pY : (n : ℕ) → ℕ → Vec n → Vec n
  | 0, _, v => v
  | n + 1, k, .node v0 v1 =>
      if k = n then .node (csmul (0, -1) v1) (csmul (0, 1) v0)
      else .node (pY n k v0) (pY n k v1)

/-- Swap the amplitudes of the two vectors at exactly the indices whose
bit c is set; returns the updated pair.  Helper for the cx gate whose
target is the top qubit. -/
def condSwap : (n : ℕ) → ℕ → Vec n → Vec n → Vec n × Vec n
  | 0, _, a, b => (a, b)
  | n + 1, c, .node x0 x1, .node y0 y1 =>
      if c = n then (.node x0 y1, .node y0 x1)
      else
        let p0 := condSwap n c x0 y0
        let p1 := condSwap n c x1 y1
        (.node p0.1 p1.1, .node p0.2 p1.2)

/-- Controlled-X gate with control qubit ctrl and target qubit tgt. -/
def cxG : (n : ℕ) → ℕ → ℕ → Vec n → Vec n
  | 0, _, _, v => v
  | n + 1, ctrl, tgt, .node v0 v1 =>
      if ctrl = n then .node v0 (pX n tgt v1)
      else if tgt = n then
        let p := condSwap n ctrl v0 v1
        .node p.1 p.2
      else .node (cxG n ctrl tgt v0) (cxG n ctrl tgt v1)

theorem normSq_ryG : ∀ (n k : ℕ) (c s : ℚ) (v : Vec n),
    c ^ 2 + s ^ 2 = 1 → normSq (ryG n k c s v) = normSq v := by
  intro n k c s v h
  induction v with
  | base a b => simp [ryG]
  | node v0 v1 ih0 ih1 =>
      rename_i m
      by_cases hk : k = m
      · simp only [ryG, if_pos hk, normSq, normSq_vadd_smul]
        linear_combination (normSq v0 + normSq v1) * h
      · simp [ryG, if_neg hk, normSq, ih0, ih1]

theorem normSq_pX : ∀ (n k : ℕ) (v : Vec n), normSq (pX n k v) = normSq v := by
  intro n k v
  induction v with
  | base a b => simp [pX]
  | node v0 v1 ih0 ih1 =>
      rename_i m
      by_cases hk : k = m
      · simp [pX, if_pos hk, normSq]; ring
      · simp [pX, if_neg hk, normSq, ih0, ih1]

theorem normSq_pZ : ∀ (n k : ℕ) (v : Vec n), normSq (pZ n k v) = normSq v := by
  intro n k v
  induction v with
  | base a b => simp [pZ]
  | node v0 v1 ih0 ih1 =>
      rename_i m
      by_cases hk : k = m
      · simp [pZ, if_pos hk, normSq, normSq_qsmul]
      · simp [pZ, if_neg hk, normSq, ih0, ih1]

theorem normSq_pY : ∀ (n k : ℕ) (v : Vec n), normSq (pY n k v) = normSq v := by
  intro n k v
  induction v with
  | base a b => simp [pY]
  | node v0 v1 ih0 ih1 =>
      rename_i m
      by_cases hk : k = m
      · simp [pY, if_pos hk, normSq, normSq_csmul, cnormSq]; ring
      · simp [pY, if_neg hk, normSq, ih0, ih1]

theorem normSq_condSwap : ∀ (n c : ℕ) (x y : Vec n),
    normSq (condSwap n c x y).1 + normSq (condSwap n c x y).2 =
      normSq x + normSq y := by
  intro n c x y
  induction x with
  | base a b => cases y with | base e f => simp [condSwap]
  | node x0 x1 ih0 ih1 =>
      cases y with
      | node y0 y1 =>
          rename_i m
          by_cases hc : c = m
          · simp [condSwap, if_pos hc, normSq]; ring
          · simp only [condSwap, if_neg hc, normSq]
            have h0 := ih0 y0
            have h1 := ih1 y1
            linarith

theorem normSq_cxG : ∀ (n ctrl tgt : ℕ) (v : Vec n),
    normSq (cxG n ctrl tgt v) = normSq v := by
  intro n ctrl tgt v
  induction v with
  | base a b => simp [cxG]
  | node v0 v1 ih0 ih1 =>
      rename_i m
      by_cases hc : ctrl = m
      · simp [cxG, if_pos hc, normSq, normSq_pX]
      · by_cases ht : tgt = m
        · simp only [cxG, if_neg hc, if_pos ht, normSq]
          exact normSq_condSwap m ctrl v0 v1
        · simp [cxG, if_neg hc, if_neg ht, normSq, ih0, ih1]

/-- Action of one Pauli character on one qubit; characters other than
X, Y, Z (in particular the identity character) act as the identity. -/
def applyPauliChar (n : ℕ) (ch : Char) (k : ℕ) (v : Vec n) : Vec n :=
  if ch = 'X' then pX n k v
  else if ch = 'Y' then pY n k v
  else if ch = 'Z' then pZ n k v
  else v

/-- Apply a Pauli character list, the head character acting on qubit k-1,
the next on qubit k-2, and so on (the source's string convention: the
leftmost character is the highest qubit). -/
def applyPfrom (n : ℕ) : List Char → ℕ → Vec n → Vec n
  | [], _, v => v
  | ch :: rest, k, v => applyPauliChar n ch (k - 1) (applyPfrom n rest (k - 1) v)

/-- Action of a Pauli-string observable (e.g. "ZIII") on a statevector. -/
def applyPauliString (n : ℕ) (s : String) (v : Vec n) : Vec n :=
  applyPfrom n s.toList s.toList.length v

/-- Real part of the expectation value of a Pauli-string observable. -/
def expvalRe (n : ℕ) (v : Vec n) (s : String) : ℚ :=
  (cinner v (applyPauliString n s v)).1

/-- Operator: ordered list of (Pauli string, real coefficient) pairs, the
data SparsePauliOp is built from in both programs. -/
abbrev Operator : Type := List (String × ℚ)

/-- Modelled from the spec: the Evaluator (the library's statevector
estimator, absent from the repository's own files).  Real part of the
expectation of the operator in the given state: the weighted sum over the
operator's terms of each basis term's expectation value. -/
def evaluateRe (n : ℕ) (op : Operator) (v : Vec n) : ℚ :=
  (op.map (fun t => t.2 * expvalRe n v t.1)).sum

/-- Sum of absolute values of the operator's coefficients: the operator's
theoretical value range is [-sumAbsCoeffs, sumAbsCoeffs]. -/
def sumAbsCoeffs (op : Operator) : ℚ := (op.map (fun t => |t.2|)).sum

def zeroVec : (n : ℕ) → Vec n
  | 0 => .base 0 0
  | n + 1 => .node (zeroVec n) (zeroVec n)

/-- The all-zero computational basis state, the initial state of the
circuit before any gate is applied. -/
def baseState : (n : ℕ) → Vec n
  | 0 => .base 1 0
  | n + 1 => .node (baseState n) (zeroVec n)

theorem normSq_zeroVec : ∀ (n : ℕ), normSq (zeroVec n) = 0 := by
  intro n
  induction n with
  | zero => simp [zeroVec, normSq]
  | succ m ih => simp [zeroVec, normSq, ih]

theorem normSq_baseState : ∀ (n : ℕ), normSq (baseState n) = 1 := by
  intro n
  induction n with
  | zero => simp [baseState, normSq]
  | succ m ih => simp [baseState, normSq, ih, normSq_zeroVec]

theorem normSq_applyPauliChar (n : ℕ) (ch : Char) (k : ℕ) (v : Vec n) :
    normSq (applyPauliChar n ch k v) = normSq v := by
  unfold applyPauliChar
  by_cases hx : ch = 'X'
  · simp [hx, normSq_pX]
  · by_cases hy : ch = 'Y'
    · simp [hx, hy, normSq_pY]
    · by_cases hz : ch = 'Z'
      · simp [hx, hy, hz, normSq_pZ]
      · simp [hx, hy, hz]

theorem normSq_applyPfrom (n : ℕ) :
    ∀ (l : List Char) (k : ℕ) (v : Vec n), normSq (applyPfrom n l k v) = normSq v := by
  intro l
  induction l with
  | nil => intro k v; simp [applyPfrom]
  | cons ch rest ih =>
      intro k v
      simp [applyPfrom, normSq_applyPauliChar, ih]

theorem normSq_applyPauliString (n : ℕ) (s : String) (v : Vec n) :
    normSq (applyPauliString n s v) = normSq v := by
  unfold applyPauliString
  exact normSq_applyPfrom n _ _ v

theorem applyPfrom_replicate_I (n : ℕ) :
    ∀ (m k : ℕ) (v : Vec n), applyPfrom n (List.replicate m 'I') k v = v := by
  intro m
  induction m with
  | zero => intro k v; simp [applyPfrom]
  | succ j ih =>
      intro k v
      simp only [List.replicate, applyPfrom, ih]
      rw [applyPauliChar, if_neg (by decide), if_neg (by decide), if_neg (by decide)]

/-- Expectation of a Pauli observable is bounded by the squared norm of the
state: the core of the operator's theoretical value range. -/
theorem abs_expvalRe_le (n : ℕ) (s : String) (v : Vec n) (h : normSq v = 1) :
    |expvalRe n v s| ≤ 1 := by
  have hb := abs_two_cinner_re_le v (applyPauliString n s v)
  rw [normSq_applyPauliString, h] at hb
  unfold expvalRe
  have h2 : |2 * (cinner v (applyPauliString n s v)).1| =
      2 * |(cinner v (applyPauliString n s v)).1| := by
    rw [abs_mul]
    norm_num
  rw [h2] at hb
  linarith

/-- Evaluation is bounded by the sum of the absolute coefficients on any
normalized state. -/
theorem abs_evaluateRe_le (n : ℕ) (op : Operator) (v : Vec n) (h : normSq v = 1) :
    |evaluateRe n op v| ≤ sumAbsCoeffs op := by
  unfold evaluateRe sumAbsCoeffs
  induction op with
  | nil => simp
  | cons t rest ih =>
      simp only [List.map_cons, List.sum_cons]
      calc |t.2 * expvalRe n v t.1 + (rest.map (fun t => t.2 * expvalRe n v t.1)).sum|
          ≤ |t.2 * expvalRe n v t.1| + |(rest.map (fun t => t.2 * expvalRe n v t.1)).sum| :=
            abs_add _ _
        _ ≤ |t.2| * 1 + (rest.map (fun t => |t.2|)).sum := by
            have h1 : |t.2 * expvalRe n v t.1| ≤ |t.2| * 1 := by
              rw [abs_mul]
              exact mul_le_mul_of_nonneg_left (abs_expvalRe_le n t.1 v h) (abs_nonneg _)
            exact add_le_add h1 ih
        _ = |t.2| + (rest.map (fun t => |t.2|)).sum := by ring

/-- Evaluation of an operator consisting of a single all-identity term of
coefficient c gives exactly c times the squared norm of the state. -/
theorem evaluateRe_identity (n m : ℕ) (c : ℚ) (v : Vec n) :
    evaluateRe n [(String.mk (List.replicate m 'I'), c)] v = c * normSq v := by
  unfold evaluateRe expvalRe applyPauliString
  simp only [List.map_cons, List.map_nil, List.sum_cons, List.sum_nil, add_zero]
  have hl : (String.mk (List.replicate m 'I')).toList = List.replicate m 'I' := rfl
  rw [hl, applyPfrom_replicate_I, cinner_self_re]

/-- Rotation parameter for an ry gate, recorded as the point
(cos of the half angle, sin of the half angle) on the unit circle. -/
abbrev Rot : Type := ℚ × ℚ

/-- A rotation parameter lying on the unit circle. -/
def IsUnit2 (r : Rot) : Prop := r.1 ^ 2 + r.2 ^ 2 = 1

instance (r : Rot) : Decidable (IsUnit2 r) := by
  unfold IsUnit2
  infer_instance

/-- Composition of rotations: angle addition on the unit circle. -/
def rmul (a b : Rot) : Rot := (a.1 * b.1 - a.2 * b.2, a.1 * b.2 + a.2 * b.1)

/-- Unit-circle point of the angle with half-angle tangent t, the rational
parametrization of rotations used by the optimizer model. -/
def angleRot (t : ℚ) : Rot := ((1 - t ^ 2) / (1 + t ^ 2), 2 * t / (1 + t ^ 2))

/-- All rotation parameters in the vector lie on the unit circle. -/
def allUnit (ps : List Rot) : Prop := ∀ r ∈ ps, IsUnit2 r

instance (ps : List Rot) : Decidable (allUnit ps) := by
  unfold allUnit
  infer_instance

theorem isUnit2_rmul (a b : Rot) (ha : IsUnit2 a) (hb : IsUnit2 b) :
    IsUnit2 (rmul a b) := by
  unfold IsUnit2 rmul at *
  simp only []
  linear_combination (b.1 ^ 2 + b.2 ^ 2) * ha + hb

theorem isUnit2_angleRot (t : ℚ) : IsUnit2 (angleRot t) := by
  unfold IsUnit2 angleRot
  have h : (1 + t ^ 2) ≠ 0 := by positivity
  field_simp
  ring

/-- Layer of ry rotations: params applied to consecutive qubits starting
at qubit k. -/
def rotLayer (n : ℕ) : List Rot → ℕ → Vec n → Vec n
  | [], _, v => v
  | r :: rs, k, v => rotLayer n rs (k + 1) (ryG n k r.1 r.2 v)

/-- Pairs (i, j) with i < j < q: the full entanglement map of TwoLocal. -/
def entPairs (q : ℕ) : List (ℕ × ℕ) :=
  (List.range q).flatMap (fun i => ((List.range q).filter (fun j => i < j)).map (fun j => (i, j)))

/-- Entangling layer: a cx gate for every pair of the full entanglement map. -/
def entLayer (n q : ℕ) (v : Vec n) : Vec n :=
  (entPairs q).foldl (fun w p => cxG n p.1 p.2 w) v

/-- Repetition blocks of the TwoLocal circuit: each block is one entangling
layer followed by one rotation layer consuming q fresh parameters. -/
def twoLocalLoop (n q : ℕ) : ℕ → List Rot → Vec n → Vec n
  | 0, _, v => v
  | r + 1, ps, v => twoLocalLoop n q r (ps.drop q) (rotLayer n (ps.take q) 0 (entLayer n q v))

/-- AnsatzSpec: the four fields describing the parameterized state family
(TwoLocal with ry rotation blocks and cx entanglement blocks). -/
structure AnsatzSpec where
  qubit_count : ℕ
  rotation_kind : String
  entanglement_kind : String
  repetitions : ℕ
deriving DecidableEq

/-- Modelled from the spec: number of free parameters of the ansatz, a pure
function of the spec's fields: one rotation layer before each of the
repetitions entangling layers, plus a final layer, one parameter per qubit
per rotation layer. -/
def parameter_count (a : AnsatzSpec) : ℕ := a.qubit_count * (a.repetitions + 1)

/-- Modelled from the spec: the state the ansatz produces from a parameter
vector (the TwoLocal circuit applied to the all-zero state): an initial
rotation layer, then repetitions blocks of entangling plus rotation layer. -/
def twoLocalState (a : AnsatzSpec) (ps : List Rot) : Vec a.qubit_count :=
  twoLocalLoop a.qubit_count a.qubit_count a.repetitions (ps.drop a.qubit_count)
    (rotLayer a.qubit_count (ps.take a.qubit_count) 0 (baseState a.qubit_count))

theorem normSq_rotLayer (n : ℕ) :
    ∀ (rs : List Rot) (k : ℕ) (v : Vec n), allUnit rs →
      normSq (rotLayer n rs k v) = normSq v := by
  intro rs
  induction rs with
  | nil => intro k v _; simp [rotLayer]
  | cons r rest ih =>
      intro k v h
      have hr : IsUnit2 r := h r (List.mem_cons_self r rest)
      have hrest : allUnit rest := fun x hx => h x (List.mem_cons_of_mem r hx)
      simp only [rotLayer]
      rw [ih (k + 1) _ hrest, normSq_ryG n k r.1 r.2 v hr]

theorem normSq_entLayer (n q : ℕ) (v : Vec n) :
    normSq (entLayer n q v) = normSq v := by
  unfold entLayer
  generalize entPairs q = l
  induction l generalizing v with
  | nil => simp
  | cons p rest ih => simp [List.foldl_cons, ih, normSq_cxG]

theorem normSq_twoLocalLoop (n q : ℕ) :
    ∀ (r : ℕ) (ps : List Rot) (v : Vec n), allUnit ps →
      normSq (twoLocalLoop n q r ps v) = normSq v := by
  intro r
  induction r with
  | zero => intro ps v _; simp [twoLocalLoop]
  | succ j ih =>
      intro ps v h
      have hdrop : allUnit (ps.drop q) := fun x hx => h x (List.drop_subset q ps hx)
      have htake : allUnit (ps.take q) := fun x hx => h x (List.take_subset q ps hx)
      simp only [twoLocalLoop]
      rw [ih _ _ hdrop, normSq_rotLayer n _ 0 _ htake, normSq_entLayer]

/-- The ansatz always produces a normalized state from unit parameters. -/
theorem normSq_twoLocalState (a : AnsatzSpec) (ps : List Rot) (h : allUnit ps) :
    normSq (twoLocalState a ps) = 1 := by
  unfold twoLocalState
  have hdrop : allUnit (ps.drop a.qubit_count) :=
    fun x hx => h x (List.drop_subset _ ps hx)
  have htake : allUnit (ps.take a.qubit_count) :=
    fun x hx => h x (List.take_subset _ ps hx)
  rw [normSq_twoLocalLoop _ _ _ _ _ hdrop, normSq_rotLayer _ _ 0 _ htake,
    normSq_baseState]

/-- Linear congruential step of the stochastic strategy's private
pseudo-random generator. -/
def lcg (s : ℕ) : ℕ := (s * 1103515245 + 12345) % 2147483648

/-- Sign bit extracted from the generator state. -/
def rngBool (s : ℕ) : Bool := (s / 65536) % 2 = 1

/-- Draw m random signs, returning them with the advanced generator state. -/
def mkDeltas : ℕ → ℕ → List Bool × ℕ
  | 0, s => ([], s)
  | m + 1, s =>
      let s1 := lcg s
      let p := mkDeltas m s1
      (rngBool s1 :: p.1, p.2)

/-- Rotation list that is the given rotation at index i and the identity
rotation elsewhere. -/
def oneHot (m i : ℕ) (r : Rot) : List Rot :=
  (List.range m).map (fun j => if j = i then r else (1, 0))

/-- Pointwise composition of a list of rotation offsets with the parameter
vector: the model of adding an offset vector to the parameters. -/
def applyRots (ds ps : List Rot) : List Rot := List.zipWith rmul ds ps

/-- Modelled from the spec: finite-difference gradient estimate of the
objective, one symmetric difference per coordinate. -/
def fdGrad (f : List Rot → ℚ) (h : ℚ) (ps : List Rot) : List ℚ :=
  (List.range ps.length).map (fun i =>
    (f (applyRots (oneHot ps.length i (angleRot h)) ps) -
      f (applyRots (oneHot ps.length i (angleRot (-h))) ps)) / (2 * h))

/-- Modelled from the spec: one iteration of the Deterministic (sequential
quadratic-programming style) strategy: finite-difference gradient, scaled
update, together with the squared norm of the update for the tolerance
check. -/
def detStep (f : List Rot → ℚ) (lr h : ℚ) (ps : List Rot) : List Rot × ℚ :=
  let u := (fdGrad f h ps).map (fun g => lr * g)
  (applyRots (u.map (fun x => angleRot (-x))) ps, (u.map (fun x => x ^ 2)).sum)

/-- Modelled from the spec: one iteration of the StochasticPerturbation
(simultaneous perturbation style) strategy: a random sign vector, two
objective evaluations at symmetric perturbations with decaying magnitude,
a gradient proxy from the two values, and an update by a decaying step. -/
def spsaStep (f : List Rot → ℚ) (lr h : ℚ) (k : ℕ) (ps : List Rot) (s : ℕ) :
    List Rot × ℕ :=
  let d := mkDeltas ps.length s
  let ck := h / (k + 1)
  let fp := f (applyRots (d.1.map (fun b => angleRot (if b then ck else -ck))) ps)
  let fm := f (applyRots (d.1.map (fun b => angleRot (if b then -ck else ck))) ps)
  let g := (fp - fm) / (2 * ck)
  let ak := lr / (k + 1)
  (applyRots (d.1.map (fun b => angleRot (if b then -(ak * g) else ak * g))) ps, d.2)

/-- The two optimizer strategies, a closed tagged variant. -/
inductive Strategy
  | deterministic
  | stochasticPerturbation
deriving DecidableEq

/-- Optimizer configuration: strategy tag, iteration budget, and the
strategy tunables. -/
structure OptimizerConfig where
  strategy : Strategy
  max_iterations : ℕ
  tolerance : ℚ
  learning_rate : ℚ
  step_size : ℚ
deriving DecidableEq

/-- Result of a minimization run. -/
structure EnergyResult where
  value : ℚ
  iterations_used : ℕ
  converged : Bool
deriving DecidableEq

/-- Modelled from the spec: the optimizer loop.  The Deterministic strategy
may stop early once the squared update norm falls below the tolerance and
then reports converged; the StochasticPerturbation strategy never stops
early, always exhausting the iteration budget, and returns the best energy
seen.  Exhaustion reports converged false. -/
def minimizeLoop (f : List Rot → ℚ) (cfg : OptimizerConfig) :
    ℕ → ℕ → List Rot → ℕ → ℚ → EnergyResult
  | 0, done, ps, _, best =>
      { value :=
          match cfg.strategy with
          | .stochasticPerturbation => best
          | .deterministic => f ps,
        iterations_used := done, converged := false }
  | fuel + 1, done, ps, s, best =>
      match cfg.strategy with
      | .deterministic =>
          let st := detStep f cfg.learning_rate cfg.step_size ps
          if st.2 < cfg.tolerance then
            { value := f st.1, iterations_used := done + 1, converged := true }
          else minimizeLoop f cfg fuel (done + 1) st.1 s best
      | .stochasticPerturbation =>
          let st := spsaStep f cfg.learning_rate cfg.step_size done ps s
          minimizeLoop f cfg fuel (done + 1) st.1 st.2 (min best (f st.1))

/-- The objective function the optimizer minimizes: the evaluated energy of
the operator in the ansatz state. -/
def objective (op : Operator) (a : AnsatzSpec) (ps : List Rot) : ℚ :=
  evaluateRe a.qubit_count op (twoLocalState a ps)

/-- Modelled from the spec: minimize drives repeated evaluations from the
initial parameter vector, with the generator state used only by the
stochastic strategy. -/
def minimize (op : Operator) (a : AnsatzSpec) (cfg : OptimizerConfig)
    (ps0 : List Rot) (seed : ℕ) : EnergyResult :=
  minimizeLoop (objective op a) cfg cfg.max_iterations 0 ps0 seed (objective op a ps0)

theorem allUnit_applyRots :
    ∀ (ds ps : List Rot), allUnit ds → allUnit ps → allUnit (applyRots ds ps) := by
  intro ds
  induction ds with
  | nil => intro ps _ _ r hr; simp [applyRots] at hr
  | cons d rest ih =>
      intro ps hd hp
      cases ps with
      | nil => intro r hr; simp [applyRots] at hr
      | cons p ptail =>
          intro r hr
          simp only [applyRots, List.zipWith_cons_cons, List.mem_cons] at hr
          rcases hr with h | h
          · subst h
            exact isUnit2_rmul d p (hd d (List.mem_cons_self d rest))
              (hp p (List.mem_cons_self p ptail))
          · exact ih ptail (fun x hx => hd x (List.mem_cons_of_mem d hx))
              (fun x hx => hp x (List.mem_cons_of_mem p hx)) r h

theorem allUnit_map_angleRot (l : List ℚ) (g : ℚ → ℚ) :
    allUnit (l.map (fun x => angleRot (g x))) := by
  intro r hr
  rcases List.mem_map.mp hr with ⟨x, _, hx⟩
  rw [← hx]
  exact isUnit2_angleRot (g x)

theorem allUnit_map_angleRot_bool (l : List Bool) (g : Bool → ℚ) :
    allUnit (l.map (fun b => angleRot (g b))) := by
  intro r hr
  rcases List.mem_map.mp hr with ⟨x, _, hx⟩
  rw [← hx]
  exact isUnit2_angleRot (g x)

theorem allUnit_detStep (f : List Rot → ℚ) (lr h : ℚ) (ps : List Rot)
    (hp : allUnit ps) : allUnit (detStep f lr h ps).1 := by
  unfold detStep
  exact allUnit_applyRots _ ps (allUnit_map_angleRot _ _) hp

theorem allUnit_spsaStep (f : List Rot → ℚ) (lr h : ℚ) (k : ℕ) (ps : List Rot)
    (s : ℕ) (hp : allUnit ps) : allUnit (spsaStep f lr h k ps s).1 := by
  unfold spsaStep
  exact allUnit_applyRots _ ps (allUnit_map_angleRot_bool _ _) hp

theorem minimizeLoop_spsa_run (f : List Rot → ℚ) (cfg : OptimizerConfig)
    (hs : cfg.strategy = Strategy.stochasticPerturbation) :
    ∀ (fuel done : ℕ) (ps : List Rot) (s : ℕ) (best : ℚ),
      (minimizeLoop f cfg fuel done ps s best).iterations_used = done + fuel ∧
      (minimizeLoop f cfg fuel done ps s best).converged = false := by
  intro fuel
  induction fuel with
  | zero => intro done ps s best; simp [minimizeLoop]
  | succ m ih =>
      intro done ps s best
      simp only [minimizeLoop, hs]
      have h := ih (done + 1)
        (spsaStep f cfg.learning_rate cfg.step_size done ps s).1
        (spsaStep f cfg.learning_rate cfg.step_size done ps s).2
        (min best (f (spsaStep f cfg.learning_rate cfg.step_size done ps s).1))
      exact ⟨h.1.trans (by omega), h.2⟩

theorem minimizeLoop_converged_det (f : List Rot → ℚ) (cfg : OptimizerConfig) :
    ∀ (fuel done : ℕ) (ps : List Rot) (s : ℕ) (best : ℚ),
      (minimizeLoop f cfg fuel done ps s best).converged = true →
      cfg.strategy = Strategy.deterministic := by
  intro fuel
  induction fuel with
  | zero => intro done ps s best h; simp [minimizeLoop] at h
  | succ m ih =>
      intro done ps s best h
      cases hs : cfg.strategy with
      | deterministic => rfl
      | stochasticPerturbation =>
          simp only [minimizeLoop, hs] at h
          have hd := ih _ _ _ _ h
          rwa [hs] at hd

theorem minimizeLoop_det_seed (f : List Rot → ℚ) (cfg : OptimizerConfig)
    (hs : cfg.strategy = Strategy.deterministic) :
    ∀ (fuel done : ℕ) (ps : List Rot) (s s' : ℕ) (best : ℚ),
      minimizeLoop f cfg fuel done ps s best =
      minimizeLoop f cfg fuel done ps s' best := by
  intro fuel
  induction fuel with
  | zero => intro done ps s s' best; rfl
  | succ m ih =>
      intro done ps s s' best
      simp only [minimizeLoop, hs]
      by_cases hc : (detStep f cfg.learning_rate cfg.step_size ps).2 < cfg.tolerance
      · simp [hc]
      · simp only [if_neg hc]
        exact ih _ _ _ _ _

theorem abs_min_le (a b B : ℚ) (ha : |a| ≤ B) (hb : |b| ≤ B) : |min a b| ≤ B := by
  rcases le_total a b with h | h
  · rw [min_eq_left h]; exact ha
  · rw [min_eq_right h]; exact hb

theorem minimizeLoop_bound (f : List Rot → ℚ) (cfg : OptimizerConfig) (B : ℚ)
    (hf : ∀ qs, allUnit qs → |f qs| ≤ B) :
    ∀ (fuel done : ℕ) (ps : List Rot) (s : ℕ) (best : ℚ),
      allUnit ps → |best| ≤ B →
      |(minimizeLoop f cfg fuel done ps s best).value| ≤ B := by
  intro fuel
  induction fuel with
  | zero =>
      intro done ps s best hp hb
      cases hs : cfg.strategy with
      | deterministic => simpa [minimizeLoop, hs] using hf ps hp
      | stochasticPerturbation => simpa [minimizeLoop, hs] using hb
  | succ m ih =>
      intro done ps s best hp hb
      cases hs : cfg.strategy with
      | deterministic =>
          have hps1 := allUnit_detStep f cfg.learning_rate cfg.step_size ps hp
          by_cases hc : (detStep f cfg.learning_rate cfg.step_size ps).2 < cfg.tolerance
          · simpa [minimizeLoop, hs, hc] using hf _ hps1
          · simpa [minimizeLoop, hs, hc] using ih (done + 1) _ s best hps1 hb
      | stochasticPerturbation =>
          have hps1 := allUnit_spsaStep f cfg.learning_rate cfg.step_size done ps s hp
          have hbest : |min best (f (spsaStep f cfg.learning_rate cfg.step_size done ps s).1)| ≤ B :=
            abs_min_le _ _ B hb (hf _ hps1)
          simpa [minimizeLoop, hs] using ih (done + 1) _ _ _ hps1 hbest

theorem minimizeLoop_const (f : List Rot → ℚ) (cfg : OptimizerConfig) (c : ℚ)
    (hf : ∀ qs, allUnit qs → f qs = c) :
    ∀ (fuel done : ℕ) (ps : List Rot) (s : ℕ) (best : ℚ),
      allUnit ps → best = c →
      (minimizeLoop f cfg fuel done ps s best).value = c := by
  intro fuel
  induction fuel with
  | zero =>
      intro done ps s best hp hb
      cases hs : cfg.strategy with
      | deterministic => simpa [minimizeLoop, hs] using hf ps hp
      | stochasticPerturbation => simpa [minimizeLoop, hs] using hb
  | succ m ih =>
      intro done ps s best hp hb
      cases hs : cfg.strategy with
      | deterministic =>
          have hps1 := allUnit_detStep f cfg.learning_rate cfg.step_size ps hp
          by_cases hc : (detStep f cfg.learning_rate cfg.step_size ps).2 < cfg.tolerance
          · simpa [minimizeLoop, hs, hc] using hf _ hps1
          · simpa [minimizeLoop, hs, hc] using ih (done + 1) _ s best hps1 hb
      | stochasticPerturbation =>
          have hps1 := allUnit_spsaStep f cfg.learning_rate cfg.step_size done ps s hp
          have hbest : min best (f (spsaStep f cfg.learning_rate cfg.step_size done ps s).1) = c := by
            rw [hb, hf _ hps1, min_self]
          simpa [minimizeLoop, hs] using ih (done + 1) _ _ _ hps1 hbest

/-- Pauli strings of the Hamiltonian built in covid_drug_sim.py. -/
def paulis_slsqp : List String :=
  ["IIII", "ZIII", "IZII", "IIZI", "IIIZ",
   "ZZII", "ZIZI", "ZIIZ", "IZZI", "IZIZ", "IIZZ",
   "XXXX", "YYYY"]

/-- Coefficients of the Hamiltonian built in covid_drug_sim.py. -/
def coeffs_slsqp : List ℚ :=
  [-21/10, 1/2, 2/5, 1/2, 2/5,
   -1/10, -1/20, -1/20, -1/10, -1/20, -1/10,
   1/20, 1/20]

/-- Pauli strings of the Hamiltonian built in covid_drug_sim_spsa.py. -/
def paulis_spsa : List String :=
  ["IIII", "ZIII", "IZII", "IIZI", "IIIZ",
   "ZZII", "ZIZI", "ZIIZ", "IZZI", "IZIZ", "IIZZ",
   "XXXX", "YYYY"]

/-- Coefficients of the Hamiltonian built in covid_drug_sim_spsa.py. -/
def coeffs_spsa : List ℚ :=
  [-21/10, 1/2, 2/5, 1/2, 2/5,
   -1/10, -1/20, -1/20, -1/10, -1/20, -1/10,
   1/20, 1/20]

/-- The fixed Mpro binding-pocket operator, shared by both programs. -/
def mpro_op : Operator := paulis_slsqp.zip coeffs_slsqp

/-- Ansatz built in covid_drug_sim.py: TwoLocal with 4 qubits, ry rotation
blocks, cx entanglement blocks, 2 repetitions. -/
def ansatz_slsqp : AnsatzSpec := ⟨4, "ry", "cx", 2⟩

/-- Ansatz built in covid_drug_sim_spsa.py: same but with 3 repetitions. -/
def ansatz_spsa : AnsatzSpec := ⟨4, "ry", "cx", 3⟩

/-- Verdict chain of covid_drug_sim.py: strict comparison against -2.5. -/
def affinity_slsqp (e : ℚ) : String :=
  if e < -5/2 then "HIGH AFFINITY" else "WEAK AFFINITY"

/-- Verdict chain of covid_drug_sim_spsa.py: strict comparisons against
-3.0 then -2.5, most extreme first. -/
def affinity_spsa (e : ℚ) : String :=
  if e < -3 then "EXTREME AFFINITY"
  else if e < -5/2 then "HIGH AFFINITY"
  else "MODERATE AFFINITY"

/-- Modelled from the spec: the ResultInterpreter's classify: walk the
threshold table in priority order, returning the first label whose strictly
exclusive bound the energy is below, and the default label (the table's
final plus-infinity entry) otherwise. -/
def classify (e : ℚ) : List (ℚ × String) → String → String
  | [], dflt => dflt
  | (b, l) :: rest, dflt => if e < b then l else classify e rest dflt

/-- Extraction of the final energy as both programs perform it
(binding_energy = result.eigenvalue.real): the real part is taken
unconditionally. -/
def bindingEnergyOf (eig : QC) : ℚ := eig.1

/-- Modelled from the spec: extraction that verifies the imaginary
component is negligible (within tol) before discarding it, and refuses
the value otherwise. -/
def checkedBindingEnergy (tol : ℚ) (eig : QC) : Option ℚ :=
  if |eig.2| ≤ tol then some eig.1 else none

/-- Construction failures of the OperatorModel. -/
inductive ConstructionError
  | lengthMismatch
  | emptyTerms
  | termLengthMismatch
deriving DecidableEq

/-- Modelled from the spec: OperatorModel.build (the library constructor
SparsePauliOp is outside the repository's files).  Eagerly validates that
the term and coefficient lists have equal length, that the term list is
nonempty, and that every term has the same length as the first, then
returns the operator with those terms and coefficients in order. -/
def build (terms : List String) (coeffs : List ℚ) : Except ConstructionError Operator :=
  if terms.length ≠ coeffs.length then .error .lengthMismatch
  else if terms = [] then .error .emptyTerms
  else if terms.any (fun t => t.length ≠ (terms.headD "").length) then
    .error .termLengthMismatch
  else .ok (terms.zip coeffs)

theorem twoLocalLoop_take (n q : ℕ) :
    ∀ (r : ℕ) (ps : List Rot) (v : Vec n),
      twoLocalLoop n q r (ps.take (q * r)) v = twoLocalLoop n q r ps v := by
  intro r
  induction r with
  | zero => intro ps v; rfl
  | succ j ih =>
      intro ps v
      simp only [twoLocalLoop]
      have hq : q ≤ q * (j + 1) := by
        calc q = q * 1 := (Nat.mul_one q).symm
          _ ≤ q * (j + 1) := Nat.mul_le_mul_left q (by omega)
      have h1 : (ps.take (q * (j + 1))).take q = ps.take q := by
        rw [List.take_take]
        congr 1
        omega
      have h2 : (ps.take (q * (j + 1))).drop q = (ps.drop q).take (q * j) := by
        rw [List.drop_take]
        congr 1
        rw [Nat.mul_succ]
        omega
      rw [h1, h2, ih (ps.drop q)]

/-- The ansatz state depends only on the first parameter_count entries of
the parameter vector: the circuit consumes exactly that many parameters. -/
theorem twoLocalState_take (a : AnsatzSpec) (ps : List Rot) :
    twoLocalState a (ps.take (parameter_count a)) = twoLocalState a ps := by
  unfold twoLocalState parameter_count
  have hq : a.qubit_count ≤ a.qubit_count * (a.repetitions + 1) := by
    calc a.qubit_count = a.qubit_count * 1 := (Nat.mul_one _).symm
      _ ≤ a.qubit_count * (a.repetitions + 1) := Nat.mul_le_mul_left _ (by omega)
  have h1 : (ps.take (a.qubit_count * (a.repetitions + 1))).take a.qubit_count =
      ps.take a.qubit_count := by
    rw [List.take_take]
    congr 1
    omega
  have h2 : (ps.take (a.qubit_count * (a.repetitions + 1))).drop a.qubit_count =
      (ps.drop a.qubit_count).take (a.qubit_count * a.repetitions) := by
    rw [List.drop_take]
    congr 1
    rw [Nat.mul_succ]
    omega
  rw [h1, h2, twoLocalLoop_take]

theorem any_length_ne_head_iff (terms : List String) (h : terms ≠ []) :
    (terms.any (fun t => t.length ≠ (terms.headD "").length) = false) ↔
    ∀ t1 ∈ terms, ∀ t2 ∈ terms, t1.length = t2.length := by
  cases terms with
  | nil => exact absurd rfl h
  | cons hd tl =>
      simp only [List.headD_cons, List.any_eq_false, decide_eq_true_eq, ne_eq, not_not]
      constructor
      · intro hall t1 ht1 t2 ht2
        rw [hall t1 ht1, hall t2 ht2]
      · intro hpair t ht
        exact hpair t ht hd (List.mem_cons_self hd tl)

/-- The identity angle repeated m times is a unit parameter vector. -/
theorem allUnit_replicate_id (m : ℕ) : allUnit (List.replicate m (1, 0)) := by
  intro r hr
  have h := List.eq_of_mem_replicate hr
  subst h
  unfold IsUnit2
  norm_num

/-- Single-identity-term operator of the end-to-end scenario. -/
def op_identity_only : Operator := [("IIII", -21/10)]

/-- Deterministic optimizer configuration of the end-to-end scenario,
with an iteration budget of 100. -/
def det_cfg100 : OptimizerConfig :=
  ⟨Strategy.deterministic, 100, 1/1000000, 1/10, 1/100⟩

/-- All-zero-angle initial parameter vector for the 12-parameter ansatz. -/
def zero_params12 : List Rot := List.replicate 12 (1, 0)

/-- C1: classify is total over the rationals, evaluates the threshold table
most-extreme-first with strictly exclusive boundaries (at an exact boundary
value the weaker label is chosen), takes the claimed values at -3.1, -2.6,
-2.5 and 0, and the source's verdict chain is exactly this classifier on
the thresholds -3.0 and -2.5. -/
theorem classify_threshold_table :
    (∀ e : ℚ, classify e [(-3, "extreme"), (-5/2, "high")] "weak" =
      if e < -3 then "extreme" else if e < -5/2 then "high" else "weak") ∧
    classify (-31/10) [(-3, "extreme"), (-5/2, "high")] "weak" = "extreme" ∧
    classify (-13/5) [(-3, "extreme"), (-5/2, "high")] "weak" = "high" ∧
    classify (-5/2) [(-3, "extreme"), (-5/2, "high")] "weak" = "weak" ∧
    classify 0 [(-3, "extreme"), (-5/2, "high")] "weak" = "weak" ∧
    (∀ e : ℚ, affinity_spsa e =
      classify e [(-3, "EXTREME AFFINITY"), (-5/2, "HIGH AFFINITY")]
        "MODERATE AFFINITY") :=
  ⟨fun e => rfl, by norm_num [classify], by norm_num [classify],
    by norm_num [classify], by norm_num [classify], fun e => rfl⟩

/-- C2: for an Operator whose only term is the all-identity basis term with
coefficient c, evaluation returns exactly c for every AnsatzSpec and every
unit parameter vector: the identity term's expectation is invariant under
any state the ansatz can produce. -/
theorem evaluate_identity_term :
    ∀ (a : AnsatzSpec) (c : ℚ) (ps : List Rot), allUnit ps →
      evaluateRe a.qubit_count [(String.mk (List.replicate a.qubit_count 'I'), c)]
        (twoLocalState a ps) = c := by
  intro a c ps h
  rw [evaluateRe_identity, normSq_twoLocalState a ps h, mul_one]

/-- Witness for C2: the 4-qubit 2-repetition ansatz at the zero angles with
coefficient 7/2. -/
theorem evaluate_identity_term_witness :
    allUnit (List.replicate 12 ((1 : ℚ), (0 : ℚ))) ∧
    evaluateRe 4 [("IIII", 7/2)]
      (twoLocalState ansatz_slsqp (List.replicate 12 ((1 : ℚ), (0 : ℚ)))) = 7/2 :=
  ⟨allUnit_replicate_id 12,
    evaluate_identity_term ansatz_slsqp (7/2) _ (allUnit_replicate_id 12)⟩

/-- C3: parameter_count is a pure function of the spec's four fields equal
to qubit_count times (repetitions + 1); the circuit consumes exactly that
many parameters; the 4-qubit 2-repetition ansatz has 12 parameters and the
3-repetition one has 16. -/
theorem parameter_count_pure :
    (∀ a : AnsatzSpec, parameter_count a = a.qubit_count * (a.repetitions + 1)) ∧
    (∀ (a : AnsatzSpec) (ps : List Rot),
      twoLocalState a (ps.take (parameter_count a)) = twoLocalState a ps) ∧
    parameter_count ansatz_slsqp = 12 ∧ parameter_count ansatz_spsa = 16 :=
  ⟨fun a => rfl, twoLocalState_take, rfl, rfl⟩

/-- C4 counterexample: the programs' extraction of the final energy is not
the verified extraction: at the eigenvalue 0 + 7i, whose imaginary part
exceeds any negligibility tolerance of 1, the code still returns 0 while a
verifying extraction refuses the value. -/
theorem imaginary_check_cex :
    ¬ (∀ eig : QC, checkedBindingEnergy 1 eig = some (bindingEnergyOf eig)) ∧
    bindingEnergyOf (0, 7) = 0 ∧ checkedBindingEnergy 1 (0, 7) = none := by
  have hno : checkedBindingEnergy 1 (0, 7) = none := by
    rw [checkedBindingEnergy, if_neg]
    rw [abs_le]
    norm_num
  refine ⟨fun h => ?_, rfl, hno⟩
  have h7 := h (0, 7)
  rw [hno] at h7
  exact Option.noConfusion h7

/-- C4 amended: the extraction takes the real part unconditionally and the
imaginary component is silently dropped: the result ignores it entirely and
no check is performed. -/
theorem imaginary_silently_dropped :
    ∀ (re im im' : ℚ), bindingEnergyOf (re, im) = re ∧
      bindingEnergyOf (re, im) = bindingEnergyOf (re, im') :=
  fun re im im' => ⟨rfl, rfl⟩

/-- C5: the StochasticPerturbation strategy never terminates early: it
always performs exactly max_iterations iterations and reports converged
false; converged true can only be reported by the Deterministic strategy. -/
theorem spsa_exact_iterations :
    (∀ (op : Operator) (a : AnsatzSpec) (cfg : OptimizerConfig)
      (ps0 : List Rot) (seed : ℕ),
      cfg.strategy = Strategy.stochasticPerturbation →
      (minimize op a cfg ps0 seed).iterations_used = cfg.max_iterations ∧
      (minimize op a cfg ps0 seed).converged = false) ∧
    (∀ (op : Operator) (a : AnsatzSpec) (cfg : OptimizerConfig)
      (ps0 : List Rot) (seed : ℕ),
      (minimize op a cfg ps0 seed).converged = true →
      cfg.strategy = Strategy.deterministic) := by
  constructor
  · intro op a cfg ps0 seed hs
    unfold minimize
    have h := minimizeLoop_spsa_run (objective op a) cfg hs cfg.max_iterations 0
      ps0 seed (objective op a ps0)
    exact ⟨h.1.trans (by omega), h.2⟩
  · intro op a cfg ps0 seed h
    exact minimizeLoop_converged_det _ cfg _ _ _ _ _ h

/-- Witness for C5: a concrete stochastic run with budget 5 uses exactly 5
iterations and does not report convergence. -/
theorem spsa_exact_iterations_witness :
    (⟨Strategy.stochasticPerturbation, 5, 1/1000, 1/10, 1/100⟩ :
      OptimizerConfig).strategy = Strategy.stochasticPerturbation ∧
    (minimize mpro_op ansatz_spsa ⟨Strategy.stochasticPerturbation, 5, 1/1000, 1/10, 1/100⟩
      (List.replicate 16 (1, 0)) 42).iterations_used = 5 ∧
    (minimize mpro_op ansatz_spsa ⟨Strategy.stochasticPerturbation, 5, 1/1000, 1/10, 1/100⟩
      (List.replicate 16 (1, 0)) 42).converged = false :=
  ⟨rfl, (spsa_exact_iterations.1 mpro_op ansatz_spsa _ (List.replicate 16 (1, 0)) 42 rfl).1,
    (spsa_exact_iterations.1 mpro_op ansatz_spsa _ (List.replicate 16 (1, 0)) 42 rfl).2⟩

/-- C6: build fails with a ConstructionError exactly when the term and
coefficient lists differ in length, some term's length differs from
another's, or the term list is empty; otherwise it returns the operator
with those terms and coefficients in order. -/
theorem build_error_iff :
    ∀ (terms : List String) (coeffs : List ℚ),
      (build terms coeffs = Except.ok (terms.zip coeffs) ↔
        (terms.length = coeffs.length ∧ terms ≠ [] ∧
          ∀ t1 ∈ terms, ∀ t2 ∈ terms, t1.length = t2.length)) ∧
      ((∃ e, build terms coeffs = Except.error e) ↔
        ¬ (terms.length = coeffs.length ∧ terms ≠ [] ∧
          ∀ t1 ∈ terms, ∀ t2 ∈ terms, t1.length = t2.length)) := by
  intro terms coeffs
  by_cases c1 : terms.length = coeffs.length
  · by_cases c2 : terms = []
    · have hb : build terms coeffs = Except.error ConstructionError.emptyTerms := by
        unfold build
        rw [if_neg (fun h => h c1), if_pos c2]
      refine ⟨⟨fun hok => ?_, fun hg => absurd c2 hg.2.1⟩,
        ⟨fun _ hg => hg.2.1 c2, fun _ => ⟨ConstructionError.emptyTerms, hb⟩⟩⟩
      rw [hb] at hok
      exact Except.noConfusion hok
    · by_cases c3 : (terms.any (fun t => t.length ≠ (terms.headD "").length)) = true
      · have hb : build terms coeffs = Except.error ConstructionError.termLengthMismatch := by
          unfold build
          rw [if_neg (fun h => h c1), if_neg c2, if_pos c3]
        have hnp : ¬ ∀ t1 ∈ terms, ∀ t2 ∈ terms, t1.length = t2.length := by
          intro hp
          rw [(any_length_ne_head_iff terms c2).mpr hp] at c3
          cases c3
        refine ⟨⟨fun hok => ?_, fun hg => absurd hg.2.2 hnp⟩,
          ⟨fun _ hg => hnp hg.2.2, fun _ => ⟨ConstructionError.termLengthMismatch, hb⟩⟩⟩
        rw [hb] at hok
        exact Except.noConfusion hok
      · have hany : (terms.any (fun t => t.length ≠ (terms.headD "").length)) = false := by
          simpa using c3
        have hb : build terms coeffs = Except.ok (terms.zip coeffs) := by
          unfold build
          rw [if_neg (fun h => h c1), if_neg c2, if_neg c3]
        have hpair := (any_length_ne_head_iff terms c2).mp hany
        refine ⟨⟨fun _ => ⟨c1, c2, hpair⟩, fun _ => hb⟩,
          ⟨fun he => ?_, fun hn => absurd ⟨c1, c2, hpair⟩ hn⟩⟩
        obtain ⟨e, he⟩ := he
        rw [hb] at he
        exact Except.noConfusion he
  · have hb : build terms coeffs = Except.error ConstructionError.lengthMismatch := by
      unfold build
      rw [if_pos c1]
    refine ⟨⟨fun hok => ?_, fun hg => absurd hg.1 c1⟩,
      ⟨fun _ hg => c1 hg.1, fun _ => ⟨ConstructionError.lengthMismatch, hb⟩⟩⟩
    rw [hb] at hok
    exact Except.noConfusion hok

/-- C7: with the Deterministic strategy the pipeline is a pure function of
the operator, ansatz, configuration and initial parameters: the ambient
random-generator state has no influence, so two runs with identical inputs
return identical EnergyResults. -/
theorem det_run_deterministic :
    ∀ (op : Operator) (a : AnsatzSpec) (cfg : OptimizerConfig)
      (ps0 : List Rot) (s1 s2 : ℕ),
      cfg.strategy = Strategy.deterministic →
      minimize op a cfg ps0 s1 = minimize op a cfg ps0 s2 := by
  intro op a cfg ps0 s1 s2 hs
  unfold minimize
  exact minimizeLoop_det_seed _ cfg hs _ _ _ _ _ _

/-- Witness for C7: a concrete deterministic run is unchanged when the
generator state changes from 0 to 999. -/
theorem det_run_deterministic_witness :
    det_cfg100.strategy = Strategy.deterministic ∧
    minimize mpro_op ansatz_slsqp det_cfg100 zero_params12 0 =
      minimize mpro_op ansatz_slsqp det_cfg100 zero_params12 999 :=
  ⟨rfl, det_run_deterministic mpro_op ansatz_slsqp det_cfg100 zero_params12 0 999 rfl⟩

/-- C8: every energy returned by minimize, for any strategy, seed, and unit
initial parameter vector, lies within the operator's theoretical value
range: its absolute value is at most the sum of the absolute coefficients,
which is 4.45 for the fixed 13-term Hamiltonian. -/
theorem minimize_value_bounded :
    (∀ (op : Operator) (a : AnsatzSpec) (cfg : OptimizerConfig)
      (ps0 : List Rot) (seed : ℕ), allUnit ps0 →
      |(minimize op a cfg ps0 seed).value| ≤ sumAbsCoeffs op) ∧
    sumAbsCoeffs mpro_op = 89/20 := by
  constructor
  · intro op a cfg ps0 seed hp
    unfold minimize
    have hf : ∀ qs, allUnit qs → |objective op a qs| ≤ sumAbsCoeffs op := by
      intro qs hq
      unfold objective
      exact abs_evaluateRe_le _ op _ (normSq_twoLocalState a qs hq)
    exact minimizeLoop_bound _ cfg _ hf _ _ _ _ _ hp (hf ps0 hp)
  · have hop : mpro_op =
        [("IIII", -21/10), ("ZIII", 1/2), ("IZII", 2/5), ("IIZI", 1/2), ("IIIZ", 2/5),
         ("ZZII", -1/10), ("ZIZI", -1/20), ("ZIIZ", -1/20), ("IZZI", -1/10),
         ("IZIZ", -1/20), ("IIZZ", -1/10), ("XXXX", 1/20), ("YYYY", 1/20)] := rfl
    rw [hop]
    simp only [sumAbsCoeffs, List.map_cons, List.map_nil, List.sum_cons, List.sum_nil]
    rw [abs_of_nonpos (by norm_num : (-21/10 : ℚ) ≤ 0),
      abs_of_nonneg (by norm_num : (0 : ℚ) ≤ 1/2),
      abs_of_nonneg (by norm_num : (0 : ℚ) ≤ 2/5),
      abs_of_nonpos (by norm_num : (-1/10 : ℚ) ≤ 0),
      abs_of_nonpos (by norm_num : (-1/20 : ℚ) ≤ 0),
      abs_of_nonneg (by norm_num : (0 : ℚ) ≤ 1/20)]
    norm_num

/-- Witness for C8: at the zero angles the returned energy of the fixed
Hamiltonian is within 4.45 in absolute value. -/
theorem minimize_value_bounded_witness :
    allUnit zero_params12 ∧
    |(minimize mpro_op ansatz_slsqp det_cfg100 zero_params12 0).value| ≤ 89/20 :=
  ⟨allUnit_replicate_id 12,
    le_of_le_of_eq
      (minimize_value_bounded.1 mpro_op ansatz_slsqp det_cfg100 zero_params12 0
        (allUnit_replicate_id 12))
      minimize_value_bounded.2⟩

/-- C9: end-to-end scenario: with the single identity term of coefficient
-2.1, the 4-qubit 2-repetition ansatz, and the Deterministic optimizer with
a budget of 100, the returned value is exactly -2.1, and classification
under the -2.5 threshold yields the weak label (both for the table
classifier and the program's own chain). -/
theorem end_to_end_identity :
    (minimize op_identity_only ansatz_slsqp det_cfg100 zero_params12 0).value = -21/10 ∧
    classify (-21/10) [(-5/2, "high")] "weak" = "weak" ∧
    affinity_slsqp (-21/10) = "WEAK AFFINITY" := by
  have hconst : ∀ qs, allUnit qs → objective op_identity_only ansatz_slsqp qs = -21/10 := by
    intro qs hq
    unfold objective
    have hop : op_identity_only = [(String.mk (List.replicate 4 'I'), -21/10)] := rfl
    rw [hop, evaluateRe_identity, normSq_twoLocalState ansatz_slsqp qs hq, mul_one]
  refine ⟨?_, by norm_num [classify], by norm_num [affinity_slsqp]⟩
  unfold minimize
  exact minimizeLoop_const _ det_cfg100 _ hconst _ _ _ _ _ (allUnit_replicate_id 12)
    (hconst zero_params12 (allUnit_replicate_id 12))

/-- C10: the two programs construct identical operators: the same ordered
list of 13 term-coefficient pairs, and differ in ansatz repetition depth
(2 versus 3) while agreeing on qubit count, rotation kind and entanglement
kind. -/
theorem operators_identical :
    paulis_slsqp = paulis_spsa ∧ coeffs_slsqp = coeffs_spsa ∧
    paulis_slsqp.zip coeffs_slsqp = paulis_spsa.zip coeffs_spsa ∧
    (paulis_slsqp.zip coeffs_slsqp).length = 13 ∧
    ansatz_slsqp.repetitions = 2 ∧ ansatz_spsa.repetitions = 3 ∧
    ansatz_slsqp.qubit_count = ansatz_spsa.qubit_count ∧
    ansatz_slsqp.rotation_kind = ansatz_spsa.rotation_kind ∧
    ansatz_slsqp.entanglement_kind = ansatz_spsa.entanglement_kind :=
  ⟨rfl, rfl, rfl, rfl, rfl, rfl, rfl, rfl, rfl⟩

end Mpro
